import Mathlib

/-!
# Tatris: term-range scans, parallel object fetch and index metadata

A shallow embedding of three pieces of the repository:

* `incrementBytes` (`dependencies/bluge/index/dictionary_test.go`), the helper that
  turns a term prefix into the exclusive upper bound of a dictionary scan;
* `GetObject` (`internal/indexlib/bluge/directory/oss/oss.go`), the partitioned
  range fetch of an object;
* `Create`, `Get` and `fillKey` (`internal/meta/metadata/index.go`) together with the
  key namespaces of `internal/meta/metadata/metadata.go`.

Go values are modelled as follows. A `byte` is a `Fin 256` and `rv[i]++` is addition
modulo `2^8`, written out. A `[]byte` is a `List Byte`. A Go result `(v, err)` is a pair
of options, `none` standing for `nil`. Calls into collaborators that are not part of the
repository (the object-store client, the key-value engine, `encoding/json`,
`strconv.Atoi`) are fields of a record that the embedded function receives.
-/

namespace Tatris

/-! ## Bytes -/

/-- A Go `byte`. -/
abbrev Byte := Fin 256

/-- A Go `error` value. -/
abbrev Err := String

/-- The statement `rv[i]++` on a byte: one is added modulo `2^8`. -/
def incByte (b : Byte) : Byte := ⟨(b.val + 1) % 256, Nat.mod_lt _ (by decide)⟩

/-- The loop of `incrementBytes`. The second argument is `i + 1` for the loop
variable `i`, which starts at `len(rv) - 1` and runs while `i >= 0`; the loop breaks
as soon as the incremented byte is not zero. -/
def incrementLoop (rv : List Byte) : Nat → List Byte
  | 0 => rv
  | i + 1 =>
    let rv1 := rv.set i (incByte (rv.getD i 0))
    if rv1.getD i 0 ≠ 0 then rv1 else incrementLoop rv1 i

/-- The function `incrementBytes(in []byte) []byte`: a copy of the input is made and
the loop runs over it from the last index. -/
def incrementBytes (inp : List Byte) : List Byte :=
  incrementLoop inp inp.length

/-- The value of a byte sequence read as an unsigned big-endian integer. -/
def beValue : List Byte → Nat
  | [] => 0
  | b :: bs => b.val * 256 ^ bs.length + beValue bs

/-- Comparison of two byte sequences in raw-byte lexicographic order, as Go's
`bytes.Compare` does it: the first differing byte decides, and a proper initial
segment is smaller. -/
def bytesCompare : List Byte → List Byte → Ordering
  | [], [] => Ordering.eq
  | [], _ :: _ => Ordering.lt
  | _ :: _, [] => Ordering.gt
  | a :: as, b :: bs =>
    if a < b then Ordering.lt
    else if b < a then Ordering.gt
    else bytesCompare as bs

/-- Modelled from the spec: the dictionary iterator itself is not among the sources.
A term `t` is yielded iff `start ≤ t < end`; a `nil` start means "from the beginning"
and a `nil` end means "to the end". -/
def inScanRange (start stop : Option (List Byte)) (t : List Byte) : Bool :=
  (match start with
   | none => true
   | some s => decide (bytesCompare s t ≠ Ordering.gt)) &&
  (match stop with
   | none => true
   | some e => decide (bytesCompare t e = Ordering.lt))

/-- The scan of `TestIndexFieldDict` for a term beginning `kBeg`:
`kEnd := incrementBytes(kBeg)` and the iterator is opened on `(kBeg, kEnd)`. Both
slices come from `[]byte(...)` or `make`, so neither bound is `nil`. -/
def inPrefixRange (kBeg t : List Byte) : Bool :=
  inScanRange (some kBeg) (some (incrementBytes kBeg)) t

/-- The bytes of a string literal whose characters are ASCII, as `[]byte("...")`. -/
def bytesOf (s : String) : List Byte :=
  s.data.map (fun c => ⟨c.toNat % 256, Nat.mod_lt _ (by decide)⟩)

/-- The terms of the field `prefix` in `TestIndexFieldDict`. -/
def prefixFieldTerms : List (List Byte) :=
  ["bob", "cat", "cats", "catting", "dog", "doggy", "zoo"].map bytesOf

/-! ## Partitioned object fetch -/

/-- The collaborators of `GetObject`: the client and bucket of the object store, the
header parser and the scheduler. A range is named by its first and last byte offsets,
both inclusive, as `oss.Range(start, end-1)` is. -/
structure OssEnv where
  /-- The error of `GetBucket(client, bucketName)`, `none` when it succeeds. -/
  getBucket : Option Err
  /-- The `Content-Length` header of `bucket.GetObjectMeta(path)`, or its error. -/
  getObjectMeta : Except Err String
  /-- The call `strconv.Atoi` on that header; sizes are not negative. -/
  atoi : String → Except Err Nat
  /-- The value of `runtime.GOMAXPROCS(0)`. -/
  gomaxprocs : Nat
  /-- The error of `bucket.GetObject(path, oss.Range(first, last))`, `none` when the
  request succeeds. -/
  getObjectRange : Nat → Nat → Option Err
  /-- The call `io.ReadAll` on the body of the request for `(first, last)`. -/
  readAll : Nat → Nat → Except Err (List Byte)

/-- The partition count `int(math.Min(float64(GOMAXPROCS), float64(size)))`. -/
def gCount (size g : Nat) : Nat := min g size

/-- Ceiling division, the value of `math.Ceil(float64(a) / float64(b))`. For `a` below
`2^53` both conversions are exact and the rounded quotient of a non-integral `a / b`
stays strictly between its two neighbouring integers, so the ceiling is the exact one.
For `b = 0` Go yields a NaN; no loop iteration then reads the value. -/
def ceilDiv (a b : Nat) : Nat := (a + b - 1) / b

/-- The partition size `math.Ceil(float64(size) / float64(gCount))`. -/
def partSize (size g : Nat) : Nat := ceilDiv size (gCount size g)

/-- The `for i := 0; i < gCount; i++` loop of `GetObject`, reduced to the ranges
`(start, end)` it hands to `eg.Go`. The first argument counts the iterations left and
the second is `i`. The loop breaks at the first `start >= size`. -/
def issueLoop (size psize : Nat) : Nat → Nat → List (Nat × Nat)
  | 0, _ => []
  | n + 1, i =>
    let start := psize * i
    let stop := min (psize * (i + 1)) size
    if start ≥ size then [] else (start, stop) :: issueLoop size psize n (i + 1)

/-- The ranges `[start, end)` for which `GetObject` starts a partition fetch. -/
def issuedRanges (size g : Nat) : List (Nat × Nat) :=
  issueLoop size (partSize size g) (gCount size g) 0

/-- The statement `copy(content[start:end], partContent)`: as many bytes as the
shorter of the two slices holds are written from offset `start` on. -/
def copyInto (content : List Byte) (start stop : Nat) (src : List Byte) : List Byte :=
  let n := min (stop - start) src.length
  content.take start ++ src.take n ++ content.drop (start + n)

/-- The state shared by the partition fetches: the destination buffer and the first
error recorded by the `errgroup.Group`. -/
structure FetchState where
  content : List Byte
  err : Option Err

/-- The group keeps the first error only. -/
def FetchState.fail (st : FetchState) (e : Err) : FetchState :=
  match st.err with
  | none => { st with err := some e }
  | some _ => st

/-- The function passed to `eg.Go` for the range `r = (start, end)`: request the range,
read its body and copy it into place; either failure is returned to the group. -/
def fetchPart (env : OssEnv) (st : FetchState) (r : Nat × Nat) : FetchState :=
  match env.getObjectRange r.1 (r.2 - 1) with
  | some e => st.fail e
  | none =>
    match env.readAll r.1 (r.2 - 1) with
    | Except.error e => st.fail e
    | Except.ok partContent => { st with content := copyInto st.content r.1 r.2 partContent }

/-- All partition fetches of a schedule, run to completion; a failed one does not stop
the others. -/
def runFetches (env : OssEnv) (st : FetchState) (sched : List (Nat × Nat)) : FetchState :=
  sched.foldl (fetchPart env) st

/-- A range that lies inside an object `b` and whose fetch succeeds with the bytes of
`b` at that range. -/
def Served (env : OssEnv) (b : List Byte) (r : Nat × Nat) : Prop :=
  r.1 < r.2 ∧ r.2 ≤ b.length ∧ env.getObjectRange r.1 (r.2 - 1) = none ∧
    env.readAll r.1 (r.2 - 1) = Except.ok ((b.drop r.1).take (r.2 - r.1))

/-- The function `GetObject(client, bucketName, path) ([]byte, error)`. The partition
fetches run in the order they were issued; they write disjoint parts of the buffer.
After `err = eg.Wait()` the function ends with `return content, nil`. -/
def GetObject (env : OssEnv) : Option (List Byte) × Option Err :=
  match env.getBucket with
  | some e => (none, some e)
  | none =>
    match env.getObjectMeta with
    | Except.error e => (none, some e)
    | Except.ok contentLength =>
      match env.atoi contentLength with
      | Except.error e => (none, some e)
      | Except.ok size =>
        let content := List.replicate size (0 : Byte)
        let eg := runFetches env ⟨content, none⟩ (issuedRanges size env.gomaxprocs)
        let _err := eg.err
        (some eg.content, none)

/-- An object store that holds one object `b` and serves every request; `g` is the
available parallelism. -/
def servingEnv (b : List Byte) (g : Nat) : OssEnv where
  getBucket := none
  getObjectMeta := Except.ok (toString b.length)
  atoi := fun _ => Except.ok b.length
  gomaxprocs := g
  getObjectRange := fun _ _ => none
  readAll := fun first last => Except.ok ((b.drop first).take (last + 1 - first))

/-- An object store whose object has `size` bytes and whose range requests all fail. -/
def failingEnv (size g : Nat) : OssEnv where
  getBucket := none
  getObjectMeta := Except.ok (toString size)
  atoi := fun _ => Except.ok size
  gomaxprocs := g
  getObjectRange := fun _ _ => some "range read failed"
  readAll := fun _ _ => Except.error "body read failed"

/-! ## Index metadata -/

/-- Modelled from the spec: the declaration of the index type is not among the sources.
A mapped property carries its declared type as a string. -/
structure Property where
  type : String
deriving DecidableEq, Repr

/-- Modelled from the spec: `mappings.properties` maps field names to properties. -/
structure Mappings where
  properties : List (String × Property)
deriving DecidableEq, Repr

/-- Modelled from the spec: `settings{number_of_shards, number_of_replicas}`. -/
structure Settings where
  numberOfShards : Int
  numberOfReplicas : Int
deriving DecidableEq, Repr

/-- Modelled from the spec: an index definition; settings and mappings may be absent
from the JSON document. -/
structure Index where
  name : String
  settings : Option Settings
  mappings : Option Mappings
deriving DecidableEq, Repr

/-- The mapped properties of an index definition, none when the mappings are missing. -/
def Index.properties (idx : Index) : List (String × Property) :=
  match idx.mappings with
  | none => []
  | some m => m.properties

/-- Modelled from the spec: the closed set of field types. -/
def fieldTypes : List String :=
  ["keyword", "text", "integer", "long", "float", "double", "boolean", "date"]

/-- Modelled from the spec: case-folding of a declared type; the letters `A` to `Z`
become `a` to `z`. -/
def caseFold (s : String) : String := ⟨s.data.map Char.toLower⟩

/-- Modelled from the spec: the check of one property, whose error names the field and
the rejected type. -/
def checkType (field : String) (declared : String) : Option Err :=
  if caseFold declared ∈ fieldTypes then none
  else some ("the type " ++ declared ++ " of " ++ field ++ " is not supported")

/-- Modelled from the spec: the first property that fails its check aborts validation. -/
def checkProperties : List (String × Property) → Option Err
  | [] => none
  | (field, p) :: rest =>
    match checkType field p.type with
    | some e => some e
    | none => checkProperties rest

/-- Modelled from the spec: the function `checkParam` is called by the tests of the
package and is not among the sources. At least one mapped property is required, and
each property's case-folded type must be a field type. -/
def checkParam (idx : Index) : Option Err :=
  if idx.properties = [] then some "mappings can not be empty"
  else checkProperties idx.properties

/-- The constant `IndexPath` of `metadata.go`. -/
def IndexPath : String := "/_index/"

/-- The constant `AliasPath` of `metadata.go`. -/
def AliasPath : String := "/_alias/"

/-- The constant `IndexTemplatePath` of `metadata.go`. -/
def IndexTemplatePath : String := "/_index_template/"

/-- The function `fillKey(name string) string` of `index.go`. -/
def fillKey (name : String) : String := "/index/" ++ name

/-- The interface `storage.MetaStore` as `index.go` uses it, over a store state `σ`.
`set` yields the error of `Set(key, val)` and the store after the call; `get` yields
the pair `(b, err)` of `Get(key)`. -/
structure MetaStore (σ : Type) where
  set : σ → String → List Byte → Option Err × σ
  get : σ → String → Option (List Byte) × Option Err

/-- The two functions of `encoding/json` that `index.go` calls. -/
structure JsonCodec where
  marshal : Index → Except Err (List Byte)
  unmarshal : List Byte → Except Err Index

/-- The function `Create(idx *meta.Index) error`, with the store after the call. -/
def Create {σ : Type} (ms : MetaStore σ) (codec : JsonCodec) (s : σ) (idx : Index) :
    Option Err × σ :=
  match codec.marshal idx with
  | Except.error e => (some e, s)
  | Except.ok json => ms.set s (fillKey idx.name) json

/-- The function `Get(idxName string) (*meta.Index, error)`. -/
def Get {σ : Type} (ms : MetaStore σ) (codec : JsonCodec) (s : σ) (idxName : String) :
    Option Index × Option Err :=
  match ms.get s (fillKey idxName) with
  | (_, some e) => (none, some e)
  | (none, none) => (none, none)
  | (some b, none) =>
    match codec.unmarshal b with
    | Except.error e => (none, some e)
    | Except.ok idx => (some idx, none)

/-- A key-value store held in memory: `set` replaces the value under the key and
never fails, `get` finds the value under the key. -/
def memStore : MetaStore (List (String × List Byte)) where
  set := fun s key val => (none, (key, val) :: s.filter (fun kv => kv.1 ≠ key))
  get := fun s key => ((s.find? (fun kv => kv.1 = key)).map (fun kv => kv.2), none)

/-- A key-value store whose every lookup fails with the given error. -/
def brokenStore (e : Err) : MetaStore Unit where
  set := fun s _ _ => (some e, s)
  get := fun _ _ => (none, some e)

/-- A codec that serializes an index to the bytes of its name and reads any bytes back
as an index without settings and mappings; it stands in for `encoding/json` where a
concrete call is evaluated. -/
def nameCodec : JsonCodec where
  marshal := fun idx => Except.ok (bytesOf idx.name)
  unmarshal := fun _ => Except.ok ⟨"", none, none⟩

/-- The settings shared by the items of `TestCheckParam`. -/
def testSettings : Settings := ⟨3, 1⟩

/-- An item of `TestCheckParam` with the one property `name` of the given type. -/
def typedIndex (declared : String) : Index :=
  ⟨"", some testSettings, some ⟨[("name", ⟨declared⟩)]⟩⟩

/-- The tenth item of `TestCheckParam`, which carries no index at all. -/
def missingIndex : Index := ⟨"", none, none⟩

/-- The eleventh item of `TestCheckParam`, whose mappings object is empty. -/
def emptyMappingsIndex : Index := ⟨"", some testSettings, some ⟨[]⟩⟩

/-- The table of `TestCheckParam`: each index definition with the expected `Res`. -/
def checkParamTable : List (Index × Bool) :=
  [ (typedIndex "keyword", true),
    (typedIndex "text", true),
    (typedIndex "INTEGER", true),
    (typedIndex "long", true),
    (typedIndex "FLOAT", true),
    (typedIndex "double", true),
    (typedIndex "BOOLEAN", true),
    (typedIndex "date", true),
    (typedIndex "dAtE", true),
    (missingIndex, false),
    (emptyMappingsIndex, false),
    (⟨"", some testSettings, some ⟨[("name", ⟨"keyword"⟩), ("age", ⟨"string"⟩)]⟩⟩, false),
    (⟨"", some testSettings, some ⟨[("name", ⟨"bool"⟩), ("age", ⟨"int"⟩)]⟩⟩, false) ]

/-- An index named `logs` whose one property has the type `string`, which is not a
field type. -/
def badTypeIndex : Index :=
  ⟨"logs", some testSettings, some ⟨[("age", ⟨"string"⟩)]⟩⟩

/-- An index named `logs` with the one keyword property `name`. -/
def logsIndex : Index :=
  ⟨"logs", some testSettings, some ⟨[("name", ⟨"keyword"⟩)]⟩⟩

/-! ## Lemmas on `incrementBytes` and the scan range -/

theorem incByte_ne_zero_iff (b : Byte) : incByte b ≠ 0 ↔ b ≠ 255 := by
  unfold incByte
  rw [Ne, Ne, Fin.ext_iff, Fin.ext_iff]
  have := b.isLt
  simp only [Fin.val_zero]
  show ¬ ((b.val + 1) % 256 = 0) ↔ ¬ (b.val = 255)
  omega

theorem incByte_val (b : Byte) (h : b ≠ 255) : (incByte b).val = b.val + 1 := by
  have hb := b.isLt
  have h2 : b.val ≠ 255 := fun e => h (Fin.ext e)
  show (b.val + 1) % 256 = b.val + 1
  omega

theorem incByte_ff : incByte 255 = 0 := by decide

theorem getD_append_cons (a c : List Byte) (x d : Byte) :
    (a ++ x :: c).getD a.length d = x := by
  induction a with
  | nil => rfl
  | cons y a ih => simpa using ih

theorem incrementLoop_step (a c : List Byte) (x : Byte) :
    incrementLoop (a ++ x :: c) (a.length + 1) =
      if incByte x ≠ 0 then a ++ incByte x :: c
      else incrementLoop (a ++ 0 :: c) a.length := by
  have hget : (a ++ x :: c).getD a.length 0 = x := getD_append_cons a c x 0
  have hset : (a ++ x :: c).set a.length (incByte x) = a ++ incByte x :: c := by
    simp
  have hget2 : (a ++ incByte x :: c).getD a.length 0 = incByte x :=
    getD_append_cons a c (incByte x) 0
  rw [incrementLoop]
  simp only [hget, hset, hget2]
  by_cases h : incByte x = 0
  · simp [h]
  · simp [h]

theorem incrementLoop_append (a : List Byte) :
    ∀ c : List Byte, incrementLoop (a ++ c) a.length = incrementBytes a ++ c := by
  induction a using List.reverseRecOn with
  | nil => intro c; simp [incrementBytes, incrementLoop]
  | append_singleton a x ih =>
    intro c
    have h1 : (a ++ [x]) ++ c = a ++ x :: c := by simp
    have h2 : (a ++ [x]).length = a.length + 1 := by simp
    rw [h1, h2, incrementLoop_step]
    unfold incrementBytes
    rw [h2, incrementLoop_step]
    by_cases h : incByte x = 0
    · simp only [h, ne_eq, not_true_eq_false, if_false]
      rw [ih, ih]
      simp [incrementBytes]
    · simp [h]

theorem incrementBytes_snoc (q : List Byte) (x : Byte) :
    incrementBytes (q ++ [x]) =
      if x = 255 then incrementBytes q ++ [0] else q ++ [incByte x] := by
  unfold incrementBytes
  have h2 : (q ++ [x]).length = q.length + 1 := by simp
  rw [h2, incrementLoop_step]
  by_cases h : x = 255
  · subst h
    simp only [incByte_ff, ne_eq, not_true_eq_false, if_false, if_true]
    exact incrementLoop_append q [0]
  · have := (incByte_ne_zero_iff x).2 h
    simp [h, this]


theorem incrementBytes_length (inp : List Byte) :
    (incrementBytes inp).length = inp.length := by
  induction inp using List.reverseRecOn with
  | nil => rfl
  | append_singleton q x ih =>
    rw [incrementBytes_snoc]
    by_cases h : x = 255
    · simp [h, ih]
    · simp [h]

theorem beValue_append (a b : List Byte) :
    beValue (a ++ b) = beValue a * 256 ^ b.length + beValue b := by
  induction a with
  | nil => simp [beValue]
  | cons x a ih =>
    show x.val * 256 ^ (a ++ b).length + beValue (a ++ b) =
      (x.val * 256 ^ a.length + beValue a) * 256 ^ b.length + beValue b
    rw [ih, List.length_append, pow_add]
    ring

theorem beValue_lt (a : List Byte) : beValue a < 256 ^ a.length := by
  induction a with
  | nil => simp [beValue]
  | cons x a ih =>
    simp only [beValue, List.length_cons]
    have hx := x.isLt
    have hp : 0 < 256 ^ a.length := Nat.pow_pos (by decide)
    calc x.val * 256 ^ a.length + beValue a
        < x.val * 256 ^ a.length + 256 ^ a.length := by omega
      _ = (x.val + 1) * 256 ^ a.length := by ring
      _ ≤ 256 * 256 ^ a.length := Nat.mul_le_mul_right _ (by omega)
      _ = 256 ^ (a.length + 1) := by ring

theorem beValue_incrementBytes (inp : List Byte) :
    beValue (incrementBytes inp) = (beValue inp + 1) % 256 ^ inp.length := by
  induction inp using List.reverseRecOn with
  | nil => simp [incrementBytes, incrementLoop, beValue]
  | append_singleton q x ih =>
    rw [incrementBytes_snoc]
    have hlen : (q ++ [x]).length = q.length + 1 := by simp
    have hq := beValue_lt q
    by_cases h : x = 255
    · subst h
      simp only [if_true]
      rw [beValue_append, beValue_append, ih, hlen]
      simp only [beValue, List.length_singleton, List.length_nil, pow_zero, pow_one]
      have e : beValue q * 256 + ((255 : Byte).val * 1 + 0) + 1 = (beValue q + 1) * 256 := by
        show beValue q * 256 + (255 * 1 + 0) + 1 = (beValue q + 1) * 256
        ring
      rw [e, pow_succ, Nat.mul_mod_mul_right]
      show (beValue q + 1) % 256 ^ q.length * 256 + (0 * 1 + 0) = _
      omega
    · simp only [h, if_false]
      rw [beValue_append, beValue_append, hlen]
      simp only [beValue, List.length_singleton, List.length_nil, pow_zero, pow_one]
      rw [incByte_val x h]
      have hx := x.isLt
      have h2 : x.val ≠ 255 := fun e => h (Fin.ext e)
      have hb : beValue q * 256 + (x.val * 1 + 0) + 1 < 256 ^ (q.length + 1) := by
        rw [pow_succ]; omega
      rw [Nat.mod_eq_of_lt hb]
      omega

theorem incrementBytes_replicate_ff (k : Nat) :
    incrementBytes (List.replicate k (255 : Byte)) = List.replicate k 0 := by
  induction k with
  | zero => rfl
  | succ k ih =>
    rw [List.replicate_succ', incrementBytes_snoc, if_pos rfl, ih, List.replicate_succ']

theorem incrementBytes_carry (q : List Byte) (b : Byte) (k : Nat) (hb : b ≠ 255) :
    incrementBytes (q ++ b :: List.replicate k 255) = q ++ incByte b :: List.replicate k 0 := by
  induction k with
  | zero =>
    simp only [List.replicate_zero]
    rw [incrementBytes_snoc, if_neg hb]
  | succ k ih =>
    have e : q ++ b :: List.replicate (k + 1) 255 = (q ++ b :: List.replicate k 255) ++ [255] := by
      rw [List.replicate_succ']; simp
    rw [e, incrementBytes_snoc, if_pos rfl, ih, List.replicate_succ']
    simp

theorem bytesCompare_nil_left (t : List Byte) : bytesCompare [] t ≠ Ordering.gt := by
  cases t <;> simp [bytesCompare]

theorem bytesCompare_nil_right (t : List Byte) : bytesCompare t [] ≠ Ordering.lt := by
  cases t <;> simp [bytesCompare]

theorem inPrefixRange_iff (p t : List Byte) :
    inPrefixRange p t = true ↔
      bytesCompare p t ≠ Ordering.gt ∧ bytesCompare t (incrementBytes p) = Ordering.lt := by
  simp [inPrefixRange, inScanRange]

theorem range_snoc_iff (b b1 : Byte) (hb : b1.val = b.val + 1) (q : List Byte) :
    ∀ t : List Byte,
      (bytesCompare (q ++ [b]) t ≠ Ordering.gt ∧ bytesCompare t (q ++ [b1]) = Ordering.lt) ↔
        (q ++ [b]) <+: t := by
  induction q with
  | nil =>
    intro t
    cases t with
    | nil => simp [bytesCompare]
    | cons y t =>
      simp only [List.nil_append, bytesCompare, List.cons_prefix_cons, List.nil_prefix, and_true,
        Fin.lt_def, Fin.ext_iff]
      have h1 := bytesCompare_nil_left t
      have h2 := bytesCompare_nil_right t
      by_cases c1 : b.val < y.val
      · have c3 : ¬ y.val < b1.val := by omega
        have c4 : b1.val < y.val ∨ b1.val = y.val := by omega
        have c5 : ¬ b.val = y.val := by omega
        rcases c4 with c4 | c4
        · simp [c1, c3, c4, c5]
        · have c6 : ¬ b1.val < y.val := by omega
          simp [c1, c3, c6, c5, h2]
      · by_cases c2 : y.val < b.val
        · have c5 : ¬ b.val = y.val := by omega
          simp [c1, c2, c5]
        · have c5 : b.val = y.val := by omega
          have c3 : y.val < b1.val := by omega
          simp [c1, c2, c3, c5, h1]
  | cons x q ih =>
    intro t
    cases t with
    | nil => simp [bytesCompare]
    | cons y t =>
      simp only [List.cons_append, bytesCompare, List.cons_prefix_cons, Fin.lt_def, Fin.ext_iff]
      by_cases c1 : x.val < y.val
      · have c2 : ¬ y.val < x.val := by omega
        have c3 : ¬ x.val = y.val := by omega
        simp [c1, c2, c3]
      · by_cases c2 : y.val < x.val
        · have c3 : ¬ x.val = y.val := by omega
          simp [c1, c2, c3]
        · have c3 : x = y := Fin.ext (by omega)
          subst c3
          simp only [lt_irrefl, if_false, true_and]
          exact ih t

/-! ## Lemmas on the partitioned fetch -/

theorem ceilDiv_mul_ge (S W : Nat) (hW : 1 ≤ W) : S ≤ ceilDiv S W * W := by
  unfold ceilDiv
  have h1 := Nat.div_add_mod (S + W - 1) W
  have h2 := Nat.mod_lt (S + W - 1) (show 0 < W by omega)
  have h3 : W * ((S + W - 1) / W) = (S + W - 1) / W * W := Nat.mul_comm _ _
  omega

theorem ceilDiv_pos (S W : Nat) (hS : 1 ≤ S) (hW : 1 ≤ W) : 1 ≤ ceilDiv S W := by
  unfold ceilDiv
  exact (Nat.one_le_div_iff (by omega)).2 (by omega)

theorem issueLoop_length_le (S P : Nat) : ∀ n i, (issueLoop S P n i).length ≤ n := by
  intro n
  induction n with
  | zero => intro i; simp [issueLoop]
  | succ n ih =>
    intro i
    rw [issueLoop]
    by_cases h : P * i ≥ S
    · simp [h]
    · simp only [h, if_false, List.length_cons]
      exact Nat.succ_le_succ (ih (i + 1))

theorem issueLoop_getElem? (S P : Nat) :
    ∀ n i k r, (issueLoop S P n i)[k]? = some r →
      r = (P * (i + k), min (P * (i + k + 1)) S) ∧ P * (i + k) < S := by
  intro n
  induction n with
  | zero => intro i k r h; simp [issueLoop] at h
  | succ n ih =>
    intro i k r h
    rw [issueLoop] at h
    by_cases hb : P * i ≥ S
    · simp [hb] at h
    · simp only [hb, if_false] at h
      cases k with
      | zero =>
        simp only [List.getElem?_cons_zero, Option.some.injEq] at h
        subst h
        exact ⟨rfl, by simpa using hb⟩
      | succ k =>
        rw [List.getElem?_cons_succ] at h
        have := ih (i + 1) k r h
        have e : i + 1 + k = i + (k + 1) := by omega
        rw [e] at this
        exact this

theorem issueLoop_lt_length (S P : Nat) :
    ∀ n i k, k < n → P * (i + k) < S → k < (issueLoop S P n i).length := by
  intro n
  induction n with
  | zero => intro i k hk; omega
  | succ n ih =>
    intro i k hk hlt
    rw [issueLoop]
    have hmono : P * i ≤ P * (i + k) := Nat.mul_le_mul_left _ (by omega)
    have hb : ¬ P * i ≥ S := by omega
    simp only [hb, if_false, List.length_cons]
    cases k with
    | zero => omega
    | succ k =>
      have e : i + (k + 1) = i + 1 + k := by omega
      rw [e] at hlt
      have := ih (i + 1) k (by omega) hlt
      omega

theorem issuedRanges_getElem? (S G k : Nat) (r : Nat × Nat)
    (h : (issuedRanges S G)[k]? = some r) :
    r = (partSize S G * k, min (partSize S G * (k + 1)) S) ∧ partSize S G * k < S := by
  have := issueLoop_getElem? S (partSize S G) (gCount S G) 0 k r h
  simpa using this

theorem partSize_pos (S G : Nat) (hS : 1 ≤ S) (hG : 1 ≤ G) : 1 ≤ partSize S G := by
  unfold partSize gCount
  exact ceilDiv_pos S _ hS (by omega)

theorem partSize_mul_ge (S G : Nat) (hS : 1 ≤ S) (hG : 1 ≤ G) :
    S ≤ partSize S G * gCount S G := by
  unfold partSize
  exact ceilDiv_mul_ge S _ (by unfold gCount; omega)

theorem issuedRanges_valid (S G : Nat) (hS : 1 ≤ S) (hG : 1 ≤ G) (r : Nat × Nat)
    (hr : r ∈ issuedRanges S G) : r.1 < r.2 ∧ r.2 ≤ S := by
  obtain ⟨k, hk⟩ := List.getElem?_of_mem hr
  obtain ⟨e, hlt⟩ := issuedRanges_getElem? S G k r hk
  have hp := partSize_pos S G hS hG
  subst e
  simp only
  have : partSize S G * (k + 1) = partSize S G * k + partSize S G := by ring
  omega

theorem issuedRanges_cover (S G : Nat) (hS : 1 ≤ S) (hG : 1 ≤ G) (j : Nat) (hj : j < S) :
    ∃ r ∈ issuedRanges S G, r.1 ≤ j ∧ j < r.2 := by
  have hp := partSize_pos S G hS hG
  have hge := partSize_mul_ge S G hS hG
  have hdm := Nat.div_add_mod j (partSize S G)
  have hml := Nat.mod_lt j (show 0 < partSize S G by omega)
  have hk : j / partSize S G < gCount S G := by
    by_contra hc
    have : partSize S G * gCount S G ≤ partSize S G * (j / partSize S G) :=
      Nat.mul_le_mul_left _ (by omega)
    have := Nat.mul_comm (partSize S G) (gCount S G)
    omega
  have hlt : partSize S G * (0 + j / partSize S G) < S := by
    rw [Nat.zero_add]; omega
  have hlen : j / partSize S G < (issuedRanges S G).length :=
    issueLoop_lt_length S (partSize S G) (gCount S G) 0 _ hk hlt
  have hget : (issuedRanges S G)[j / partSize S G]? =
      some ((issuedRanges S G)[j / partSize S G]) := List.getElem?_eq_getElem hlen
  obtain ⟨e, _⟩ := issuedRanges_getElem? S G _ _ hget
  refine ⟨_, List.getElem_mem hlen, ?_⟩
  rw [e]
  simp only
  have : partSize S G * (j / partSize S G + 1)
      = partSize S G * (j / partSize S G) + partSize S G := by ring
  omega

theorem copyInto_slice_getElem? (buf b : List Byte) (s e : Nat) (hbuf : buf.length = b.length)
    (hse : s < e) (heb : e ≤ b.length) (j : Nat) :
    (copyInto buf s e ((b.drop s).take (e - s)))[j]? =
      if s ≤ j ∧ j < e then b[j]? else buf[j]? := by
  unfold copyInto
  have hlen : ((b.drop s).take (e - s)).length = e - s := by
    rw [List.length_take, List.length_drop]; omega
  have hn : min (e - s) ((b.drop s).take (e - s)).length = e - s := by
    rw [hlen]; exact Nat.min_self _
  simp only [hn]
  have htk : ((b.drop s).take (e - s)).take (e - s) = (b.drop s).take (e - s) := by
    rw [List.take_take, Nat.min_self]
  rw [htk]
  have hse2 : s + (e - s) = e := by omega
  rw [hse2]
  have hl1 : (buf.take s).length = s := by rw [List.length_take]; omega
  by_cases h1 : j < s
  · have hbufond : ¬ (s ≤ j ∧ j < e) := by omega
    rw [if_neg hbufond, List.append_assoc, List.getElem?_append_left (by omega)]
    rw [List.getElem?_take_of_lt h1]
  · by_cases h2 : j < e
    · have hbufond : s ≤ j ∧ j < e := by omega
      rw [if_pos hbufond, List.append_assoc, List.getElem?_append_right (by omega), hl1]
      rw [List.getElem?_append_left (by omega)]
      rw [List.getElem?_take_of_lt (by omega), List.getElem?_drop]
      congr 1
      omega
    · have hbufond : ¬ (s ≤ j ∧ j < e) := by omega
      rw [if_neg hbufond, List.getElem?_append_right (by rw [List.length_append]; omega)]
      rw [List.length_append, hl1, hlen, List.getElem?_drop]
      congr 1
      omega

theorem copyInto_slice_length (buf b : List Byte) (s e : Nat) (hbuf : buf.length = b.length)
    (hse : s < e) (heb : e ≤ b.length) :
    (copyInto buf s e ((b.drop s).take (e - s))).length = b.length := by
  unfold copyInto
  simp only [List.length_append, List.length_take, List.length_drop]
  omega

theorem fetchPart_served (env : OssEnv) (b : List Byte) (st : FetchState) (r : Nat × Nat)
    (h : Served env b r) :
    fetchPart env st r =
      { st with content := copyInto st.content r.1 r.2 ((b.drop r.1).take (r.2 - r.1)) } := by
  obtain ⟨_, _, h3, h4⟩ := h
  simp [fetchPart, h3, h4]

theorem runFetches_agree (env : OssEnv) (b : List Byte) :
    ∀ (sched : List (Nat × Nat)) (st : FetchState),
      st.content.length = b.length → st.err = none →
      (∀ r ∈ sched, Served env b r) →
      (runFetches env st sched).err = none ∧
      (runFetches env st sched).content.length = b.length ∧
      ∀ j, (runFetches env st sched).content[j]? = b[j]? ∨
        ((∀ r ∈ sched, ¬ (r.1 ≤ j ∧ j < r.2)) ∧
          (runFetches env st sched).content[j]? = st.content[j]?) := by
  intro sched
  induction sched with
  | nil =>
    intro st hl he _
    exact ⟨he, hl, fun j => Or.inr ⟨by simp, rfl⟩⟩
  | cons r rest ih =>
    intro st hl he hs
    have hr : Served env b r := hs r (List.mem_cons_self _ _)
    have hstep : runFetches env st (r :: rest) = runFetches env (fetchPart env st r) rest := rfl
    rw [hstep, fetchPart_served env b st r hr]
    obtain ⟨h1, h2, _, _⟩ := hr
    have hl1 := copyInto_slice_length st.content b r.1 r.2 hl h1 h2
    obtain ⟨ie, il, ij⟩ := ih
      { st with content := copyInto st.content r.1 r.2 ((b.drop r.1).take (r.2 - r.1)) }
      hl1 he (fun x hx => hs x (List.mem_cons_of_mem _ hx))
    refine ⟨ie, il, fun j => ?_⟩
    rcases ij j with hj | ⟨hnc, hj⟩
    · exact Or.inl hj
    · have hcp := copyInto_slice_getElem? st.content b r.1 r.2 hl h1 h2 j
      by_cases hin : r.1 ≤ j ∧ j < r.2
      · left
        rw [hj]
        show (copyInto st.content r.1 r.2 ((b.drop r.1).take (r.2 - r.1)))[j]? = b[j]?
        rw [hcp, if_pos hin]
      · right
        refine ⟨?_, ?_⟩
        · intro x hx
          rcases List.mem_cons.1 hx with rfl | hx
          · exact hin
          · exact hnc x hx
        · rw [hj]
          show (copyInto st.content r.1 r.2 ((b.drop r.1).take (r.2 - r.1)))[j]? = _
          rw [hcp, if_neg hin]

theorem runFetches_covering (env : OssEnv) (b : List Byte) (sched : List (Nat × Nat))
    (st : FetchState) (hl : st.content.length = b.length) (he : st.err = none)
    (hs : ∀ r ∈ sched, Served env b r)
    (hcov : ∀ j, j < b.length → ∃ r ∈ sched, r.1 ≤ j ∧ j < r.2) :
    (runFetches env st sched).content = b ∧ (runFetches env st sched).err = none := by
  obtain ⟨ie, il, ij⟩ := runFetches_agree env b sched st hl he hs
  refine ⟨?_, ie⟩
  apply List.ext_getElem? 
  intro j
  by_cases hj : j < b.length
  · rcases ij j with h | ⟨hnc, _⟩
    · exact h
    · obtain ⟨r, hr, hin⟩ := hcov j hj
      exact absurd hin (hnc r hr)
  · rw [List.getElem?_eq_none (by omega), List.getElem?_eq_none (by omega)]

theorem issuedRanges_zero (g : Nat) : issuedRanges 0 g = [] := by
  simp [issuedRanges, gCount, issueLoop]

theorem issuedRanges_lt_length_iff (S G k : Nat) (hk : k < gCount S G) :
    k < (issuedRanges S G).length ↔ partSize S G * k < S := by
  constructor
  · intro h
    have hget : (issuedRanges S G)[k]? = some ((issuedRanges S G)[k]) :=
      List.getElem?_eq_getElem h
    exact (issuedRanges_getElem? S G k _ hget).2
  · intro h
    have h0 : partSize S G * (0 + k) < S := by rw [Nat.zero_add]; exact h
    exact issueLoop_lt_length S (partSize S G) (gCount S G) 0 k hk h0

theorem issuedRanges_pairwise (S G : Nat) :
    (issuedRanges S G).Pairwise (fun a c => a.2 ≤ c.1) := by
  rw [List.pairwise_iff_getElem]
  intro i j hi hj hij
  obtain ⟨ei, _⟩ := issuedRanges_getElem? S G i _ (List.getElem?_eq_getElem hi)
  obtain ⟨ej, _⟩ := issuedRanges_getElem? S G j _ (List.getElem?_eq_getElem hj)
  rw [ei, ej]
  simp only
  have h1 : partSize S G * (i + 1) ≤ partSize S G * j := Nat.mul_le_mul_left _ (by omega)
  omega

theorem issuedRanges_contiguous (S G k : Nat) (a c : Nat × Nat)
    (ha : (issuedRanges S G)[k]? = some a) (hc : (issuedRanges S G)[k + 1]? = some c) :
    a.2 = c.1 := by
  obtain ⟨ea, _⟩ := issuedRanges_getElem? S G k a ha
  obtain ⟨ec, hlt⟩ := issuedRanges_getElem? S G (k + 1) c hc
  rw [ea, ec]
  simp only
  omega

theorem issuedRanges_length_le (S G : Nat) : (issuedRanges S G).length ≤ min G S :=
  issueLoop_length_le S (partSize S G) (gCount S G) 0

theorem issuedRanges_head (S G : Nat) (hS : 1 ≤ S) (hG : 1 ≤ G) :
    ∃ e, (issuedRanges S G).head? = some (0, e) := by
  have hlen : 0 < (issuedRanges S G).length :=
    (issuedRanges_lt_length_iff S G 0 (by unfold gCount; omega)).2 (by omega)
  have hget : (issuedRanges S G)[0]? = some ((issuedRanges S G)[0]) :=
    List.getElem?_eq_getElem hlen
  obtain ⟨e, _⟩ := issuedRanges_getElem? S G 0 _ hget
  rw [List.head?_eq_getElem?, hget, e, Nat.mul_zero]
  exact ⟨_, rfl⟩

theorem issuedRanges_last (S G : Nat) (hS : 1 ≤ S) (hG : 1 ≤ G) :
    ∃ s, (issuedRanges S G).getLast? = some (s, S) := by
  have hlen : 0 < (issuedRanges S G).length :=
    (issuedRanges_lt_length_iff S G 0 (by unfold gCount; omega)).2 (by omega)
  have hle := issuedRanges_length_le S G
  have hn : (issuedRanges S G).length - 1 < (issuedRanges S G).length := by omega
  have hget : (issuedRanges S G)[(issuedRanges S G).length - 1]? =
      some ((issuedRanges S G)[(issuedRanges S G).length - 1]) := List.getElem?_eq_getElem hn
  obtain ⟨e, _⟩ := issuedRanges_getElem? S G _ _ hget
  have hge : S ≤ partSize S G * (issuedRanges S G).length := by
    by_cases hW : (issuedRanges S G).length < gCount S G
    · have := (issuedRanges_lt_length_iff S G _ hW).not.1 (lt_irrefl _)
      omega
    · have h1 : (issuedRanges S G).length = gCount S G := by
        have : gCount S G = min G S := rfl
        omega
      rw [h1]
      exact partSize_mul_ge S G hS hG
  have h2 : (issuedRanges S G).length - 1 + 1 = (issuedRanges S G).length := by omega
  rw [List.getLast?_eq_getElem?, hget, e, h2, Nat.min_eq_right hge]
  exact ⟨_, rfl⟩

theorem runFetches_any_order (env : OssEnv) (b : List Byte) (sched : List (Nat × Nat))
    (hG : 1 ≤ env.gomaxprocs) (hS : 1 ≤ b.length)
    (hperm : sched.Perm (issuedRanges b.length env.gomaxprocs))
    (hread : ∀ r ∈ issuedRanges b.length env.gomaxprocs,
      env.getObjectRange r.1 (r.2 - 1) = none ∧
      env.readAll r.1 (r.2 - 1) = Except.ok ((b.drop r.1).take (r.2 - r.1))) :
    (runFetches env ⟨List.replicate b.length 0, none⟩ sched).content = b := by
  have hs : ∀ r ∈ sched, Served env b r := by
    intro r hr
    have hr2 := hperm.mem_iff.1 hr
    obtain ⟨v1, v2⟩ := issuedRanges_valid b.length env.gomaxprocs hS hG r hr2
    exact ⟨v1, v2, (hread r hr2).1, (hread r hr2).2⟩
  have hcov : ∀ j, j < b.length → ∃ r ∈ sched, r.1 ≤ j ∧ j < r.2 := by
    intro j hj
    obtain ⟨r, hr, h⟩ := issuedRanges_cover b.length env.gomaxprocs hS hG j hj
    exact ⟨r, hperm.mem_iff.2 hr, h⟩
  exact (runFetches_covering env b sched ⟨List.replicate b.length 0, none⟩ (by simp) rfl
    hs hcov).1

theorem GetObject_error_of_probe_only (env : OssEnv) (hdr : String) (size : Nat)
    (hbucket : env.getBucket = none) (hmeta : env.getObjectMeta = Except.ok hdr)
    (hatoi : env.atoi hdr = Except.ok size) : (GetObject env).2 = none := by
  simp [GetObject, hbucket, hmeta, hatoi]

/-! ## Lemmas on validation -/

theorem checkType_none_iff (field declared : String) :
    checkType field declared = none ↔ caseFold declared ∈ fieldTypes := by
  unfold checkType
  by_cases h : caseFold declared ∈ fieldTypes <;> simp [h]

theorem checkProperties_none_iff (ps : List (String × Property)) :
    checkProperties ps = none ↔ ∀ fp ∈ ps, caseFold fp.2.type ∈ fieldTypes := by
  induction ps with
  | nil => simp [checkProperties]
  | cons fp rest ih =>
    obtain ⟨field, p⟩ := fp
    rw [checkProperties]
    cases h : checkType field p.type with
    | none =>
      have := (checkType_none_iff field p.type).1 h
      simp [ih, this]
    | some e =>
      have hne : ¬ caseFold p.type ∈ fieldTypes := by
        intro hc
        rw [(checkType_none_iff field p.type).2 hc] at h
        exact Option.noConfusion h
      simp [hne]

/-! ## The claims -/

/-- C1 (as amended): for every non-empty byte sequence `p` whose last byte is not `0xFF`
and every term `t`, the term lies in the scan range `p ≤ t < incrementBytes(p)` exactly
when `t` begins with `p`; over the terms bob, cat, cats, catting, dog, doggy, zoo the
range of `cat` selects exactly cat, cats, catting. -/
theorem inPrefixRange_iff_begins_with (p t : List Byte) (hne : p ≠ [])
    (hlast : p.getLast? ≠ some 255) :
    (inPrefixRange p t = true ↔ p <+: t) ∧
    prefixFieldTerms.filter (inPrefixRange (bytesOf "cat")) =
      ["cat", "cats", "catting"].map bytesOf := by
  refine ⟨?_, by decide⟩
  rcases List.eq_nil_or_concat p with rfl | ⟨q, b, rfl⟩
  · exact absurd rfl hne
  · rw [List.concat_eq_append] at hlast ⊢
    have hb : b ≠ 255 := by
      intro h
      apply hlast
      rw [List.getLast?_concat, h]
    rw [inPrefixRange_iff, incrementBytes_snoc, if_neg hb]
    exact range_snoc_iff b (incByte b) (incByte_val b hb) q t

/-- C1, at a concrete input: the prefix `cat` and the term `cats`. -/
theorem inPrefixRange_iff_begins_with_witness :
    (bytesOf "cat" ≠ [] ∧ (bytesOf "cat").getLast? ≠ some 255) ∧
    ((inPrefixRange (bytesOf "cat") (bytesOf "cats") = true ↔
        bytesOf "cat" <+: bytesOf "cats") ∧
      prefixFieldTerms.filter (inPrefixRange (bytesOf "cat")) =
        ["cat", "cats", "catting"].map bytesOf) :=
  ⟨⟨by decide, by decide⟩,
    inPrefixRange_iff_begins_with (bytesOf "cat") (bytesOf "cats") (by decide) (by decide)⟩

/-- C1 fails as stated when the last byte of `p` is `0xFF`: for `p = 61 FF` the term `62`
lies in the range `[p, incrementBytes(p)) = [61 FF, 62 00)` and does not begin with `p`;
for `p = FF` the term `FF` begins with `p` and lies outside the range `[FF, 00)`. -/
theorem inPrefixRange_last_ff_counterexample :
    (inPrefixRange [0x61, 0xFF] [0x62] = true ∧
      decide (([0x61, 0xFF] : List Byte) <+: [0x62]) = false) ∧
    (inPrefixRange [0xFF] [0xFF] = false ∧
      decide (([0xFF] : List Byte) <+: [0xFF]) = true) := by
  decide

/-- C2: for every object content `b` and every available parallelism of at least one, if
the probe of the object yields the length of `b` and every range read that `GetObject`
issues succeeds with the bytes of `b` in that range, then `GetObject` returns `b` and a
nil error; for the empty object this is the empty buffer. -/
theorem GetObject_reconstructs (env : OssEnv) (b : List Byte) (hdr : String)
    (hbucket : env.getBucket = none) (hmeta : env.getObjectMeta = Except.ok hdr)
    (hatoi : env.atoi hdr = Except.ok b.length) (hG : 1 ≤ env.gomaxprocs)
    (hread : ∀ r ∈ issuedRanges b.length env.gomaxprocs,
      env.getObjectRange r.1 (r.2 - 1) = none ∧
      env.readAll r.1 (r.2 - 1) = Except.ok ((b.drop r.1).take (r.2 - r.1))) :
    GetObject env = (some b, none) := by
  simp only [GetObject, hbucket, hmeta, hatoi]
  by_cases hS : b.length = 0
  · have hb : b = [] := List.length_eq_zero.1 hS
    subst hb
    simp [issuedRanges_zero, runFetches]
  · have hS1 : 1 ≤ b.length := by omega
    have hs : ∀ r ∈ issuedRanges b.length env.gomaxprocs, Served env b r := by
      intro r hr
      obtain ⟨v1, v2⟩ := issuedRanges_valid b.length env.gomaxprocs hS1 hG r hr
      exact ⟨v1, v2, (hread r hr).1, (hread r hr).2⟩
    have := runFetches_covering env b (issuedRanges b.length env.gomaxprocs)
      ⟨List.replicate b.length 0, none⟩ (by simp) rfl hs
      (fun j hj => issuedRanges_cover b.length env.gomaxprocs hS1 hG j hj)
    rw [this.1]

/-- C2, at a concrete input: an object of five bytes fetched with parallelism four, that
is the size `G + 1`, in the three ranges `[0,2)`, `[2,4)`, `[4,5)`. -/
theorem GetObject_reconstructs_witness :
    issuedRanges 5 4 = [(0, 2), (2, 4), (4, 5)] ∧
    GetObject (servingEnv [1, 2, 3, 4, 5] 4) = (some [1, 2, 3, 4, 5], none) :=
  ⟨by decide,
    GetObject_reconstructs (servingEnv [1, 2, 3, 4, 5] 4) [1, 2, 3, 4, 5] (toString 5)
      rfl rfl rfl (by decide)
      (by
        intro r hr
        have h : issuedRanges 5 4 = [(0, 2), (2, 4), (4, 5)] := by decide
        rw [show ([1, 2, 3, 4, 5] : List Byte).length = 5 from rfl,
          show (servingEnv [1, 2, 3, 4, 5] 4).gomaxprocs = 4 from rfl, h] at hr
        simp only [List.mem_cons, List.mem_singleton, List.not_mem_nil, or_false] at hr
        rcases hr with rfl | rfl | rfl <;> exact ⟨rfl, rfl⟩)⟩

/-- C3 fails on the code: for an object of one byte whose only range request fails, the
error is recorded by the group and `GetObject` still returns the zero-filled buffer
with a nil error, because the function ends with `return content, nil`. -/
theorem GetObject_drops_partition_error :
    issuedRanges 1 4 = [(0, 1)] ∧
    (failingEnv 1 4).getObjectRange 0 0 = some "range read failed" ∧
    (runFetches (failingEnv 1 4) ⟨[0], none⟩ (issuedRanges 1 4)).err =
      some "range read failed" ∧
    GetObject (failingEnv 1 4) = (some [0], none) := by
  refine ⟨by decide, rfl, by decide, by decide⟩

/-- C4: validation of an index definition succeeds exactly when its mappings hold at
least one property and the case-folded type of every property is one of keyword, text,
integer, long, float, double, boolean, date; `INTEGER` and `dAtE` are accepted, missing
or empty mappings and the types `string`, `int`, `bool` are rejected, and every item of
the table of `TestCheckParam` has the expected outcome. -/
theorem checkParam_accepts_iff :
    (∀ idx : Index, checkParam idx = none ↔
      (idx.properties ≠ [] ∧ ∀ fp ∈ idx.properties, caseFold fp.2.type ∈ fieldTypes)) ∧
    checkParam (typedIndex "INTEGER") = none ∧
    checkParam (typedIndex "dAtE") = none ∧
    (checkParam missingIndex).isSome = true ∧
    (checkParam emptyMappingsIndex).isSome = true ∧
    (checkParam (typedIndex "string")).isSome = true ∧
    (checkParam (typedIndex "int")).isSome = true ∧
    (checkParam (typedIndex "bool")).isSome = true ∧
    (∀ item ∈ checkParamTable, decide (checkParam item.1 = none) = item.2) := by
  refine ⟨?_, by decide, by decide, by decide, by decide, by decide, by decide, by decide,
    by decide⟩
  intro idx
  unfold checkParam
  by_cases h : idx.properties = []
  · simp [h]
  · simp [h, checkProperties_none_iff]

/-- C5 fails on the code: `Create` never validates. For an index whose one property has
the type `string`, and for an index without mappings, validation reports an error while
`Create` on an empty store returns a nil error and writes the key `/index/logs`. -/
theorem Create_skips_validation :
    (checkParam badTypeIndex).isSome = true ∧
    (checkParam ⟨"logs", none, none⟩).isSome = true ∧
    Create memStore nameCodec [] badTypeIndex = (none, [("/index/logs", bytesOf "logs")]) ∧
    Create memStore nameCodec [] ⟨"logs", none, none⟩ =
      (none, [("/index/logs", bytesOf "logs")]) := by
  refine ⟨by decide, by decide, by decide, by decide⟩

/-- C6: for every index name, when the store lookup under the key of that name returns
no bytes and no error, `Get` returns no index and no error; when the lookup returns an
error, `Get` returns that same error and no index. -/
theorem Get_absent_or_failed {σ : Type} (ms : MetaStore σ) (codec : JsonCodec) (s : σ)
    (idxName : String) :
    (ms.get s (fillKey idxName) = (none, none) → Get ms codec s idxName = (none, none)) ∧
    (∀ b e, ms.get s (fillKey idxName) = (b, some e) →
      Get ms codec s idxName = (none, some e)) := by
  constructor
  · intro h; simp [Get, h]
  · intro b e h; simp [Get, h]

/-- C6, at concrete inputs: an empty store in memory, and a store whose lookups fail. -/
theorem Get_absent_or_failed_witness :
    Get memStore nameCodec [] "logs" = (none, none) ∧
    Get (brokenStore "disk failure") nameCodec () "logs" = (none, some "disk failure") :=
  ⟨(Get_absent_or_failed memStore nameCodec [] "logs").1 rfl,
   (Get_absent_or_failed (brokenStore "disk failure") nameCodec () "logs").2 none _ rfl⟩

/-- C7: for every byte sequence, `incrementBytes` keeps the length `n` and its result,
read as an unsigned big-endian integer, is the value of the input plus one modulo
`256^n`; a last byte other than `0xFF` gains one, each trailing `0xFF` becomes `0x00`
with the carry going into the byte before it, the bytes left of the first byte that
does not overflow are unchanged, and a sequence of `0xFF` bytes only becomes all zero. -/
theorem incrementBytes_adds_one (inp : List Byte) :
    (incrementBytes inp).length = inp.length ∧
    beValue (incrementBytes inp) = (beValue inp + 1) % 256 ^ inp.length ∧
    (∀ q b k, inp = q ++ b :: List.replicate k 255 → b ≠ 255 →
      incrementBytes inp = q ++ incByte b :: List.replicate k 0 ∧
        (incByte b).val = b.val + 1) ∧
    (∀ k, inp = List.replicate k 255 → incrementBytes inp = List.replicate k 0) := by
  refine ⟨incrementBytes_length inp, beValue_incrementBytes inp, ?_, ?_⟩
  · intro q b k h hb
    subst h
    exact ⟨incrementBytes_carry q b k hb, incByte_val b hb⟩
  · intro k h
    subst h
    exact incrementBytes_replicate_ff k

/-- C7, at a concrete input: `01 FF FF` becomes `02 00 00`, the value 131071 becomes
131072. -/
theorem incrementBytes_adds_one_witness :
    incrementBytes [1, 255, 255] = [2, 0, 0] ∧
    beValue [1, 255, 255] = 131071 ∧
    beValue (incrementBytes [1, 255, 255]) = (131071 + 1) % 256 ^ 3 :=
  ⟨((incrementBytes_adds_one [1, 255, 255]).2.2.1 [] 1 2 rfl (by decide)).1,
    rfl, (incrementBytes_adds_one [1, 255, 255]).2.1⟩

/-- C8 (as amended): for every non-empty byte sequence `p` of `0xFF` bytes only,
`incrementBytes(p)` is the sequence of the same length made of `0x00` bytes only: a
non-empty bound, not the nil end. -/
theorem incrementBytes_all_ff_wraps (p : List Byte) (hne : p ≠ [])
    (hff : ∀ b ∈ p, b = 255) :
    incrementBytes p = List.replicate p.length 0 ∧
    (incrementBytes p).length = p.length ∧
    incrementBytes p ≠ [] := by
  have hrep : p = List.replicate p.length 255 := List.eq_replicate_iff.2 ⟨rfl, hff⟩
  have hlen := incrementBytes_length p
  refine ⟨?_, hlen, ?_⟩
  · rw [hrep, incrementBytes_replicate_ff, List.length_replicate]
  · intro h
    rw [h] at hlen
    exact hne (List.length_eq_zero.1 hlen.symm)

/-- C8, at a concrete input: the sequence `FF FF` becomes `00 00`. -/
theorem incrementBytes_all_ff_wraps_witness :
    incrementBytes [255, 255] = [0, 0] ∧
    (incrementBytes [255, 255]).length = 2 ∧
    incrementBytes [255, 255] ≠ [] :=
  incrementBytes_all_ff_wraps [255, 255] (by decide) (by simp)

/-- C8 fails as stated: for `p = FF` the bound `incrementBytes(p)` is the one byte `00`;
the term `FF` is in the scan from `p` to the nil end and is excluded from the scan
`[p, incrementBytes(p))`. -/
theorem incrementBytes_all_ff_counterexample :
    incrementBytes [0xFF] = [0x00] ∧
    inScanRange (some [0xFF]) none [0xFF] = true ∧
    inPrefixRange [0xFF] [0xFF] = false := by
  decide

/-- C9 fails on the code: `fillKey` builds the key from the literal `/index/`, so for
every name the key of `Create` and `Get` differs from `IndexPath` followed by the name;
the index `logs` is written under `/index/logs`, not under `/_index/logs`. -/
theorem fillKey_is_not_IndexPath :
    (∀ name : String, fillKey name = "/index/" ++ name ∧ fillKey name ≠ IndexPath ++ name) ∧
    fillKey "logs" = "/index/logs" ∧ IndexPath ++ "logs" = "/_index/logs" ∧
    (Create memStore nameCodec [] logsIndex).2.map Prod.fst = ["/index/logs"] := by
  refine ⟨fun name => ⟨rfl, ?_⟩, by decide, by decide, by decide⟩
  intro h
  have := congrArg String.data h
  simp [fillKey, IndexPath] at this

/-- C10: for an object of `S ≥ 1` bytes and parallelism `G ≥ 1`, the ranges that
`GetObject` issues are, in order, `[partSize*k, min(partSize*(k+1), S))`; each is
non-empty and inside `[0, S)`; they are pairwise disjoint, each ends where the next
begins, the first starts at `0` and the last ends at `S`, so an offset is below `S`
exactly when one range holds it; at most `min(G, S)` ranges are issued, and partition
`k` is issued exactly when its start is below `S`. -/
theorem issuedRanges_partition (S G : Nat) (hS : 1 ≤ S) (hG : 1 ≤ G) :
    (∀ k r, (issuedRanges S G)[k]? = some r →
      r = (ceilDiv S (min G S) * k, min (ceilDiv S (min G S) * (k + 1)) S)) ∧
    (∀ r ∈ issuedRanges S G, r.1 < r.2 ∧ r.2 ≤ S) ∧
    (issuedRanges S G).Pairwise (fun a c => a.2 ≤ c.1) ∧
    (∀ k a c, (issuedRanges S G)[k]? = some a → (issuedRanges S G)[k + 1]? = some c →
      a.2 = c.1) ∧
    (∃ e, (issuedRanges S G).head? = some (0, e)) ∧
    (∃ s, (issuedRanges S G).getLast? = some (s, S)) ∧
    (∀ j, j < S ↔ ∃ r ∈ issuedRanges S G, r.1 ≤ j ∧ j < r.2) ∧
    (issuedRanges S G).length ≤ min G S ∧
    (∀ k, k < min G S →
      (k < (issuedRanges S G).length ↔ ceilDiv S (min G S) * k < S)) := by
  refine ⟨fun k r h => (issuedRanges_getElem? S G k r h).1,
    issuedRanges_valid S G hS hG, issuedRanges_pairwise S G,
    issuedRanges_contiguous S G, issuedRanges_head S G hS hG, issuedRanges_last S G hS hG,
    ?_, issuedRanges_length_le S G, fun k hk => issuedRanges_lt_length_iff S G k hk⟩
  intro j
  constructor
  · exact issuedRanges_cover S G hS hG j
  · rintro ⟨r, hr, _, h2⟩
    have := (issuedRanges_valid S G hS hG r hr).2
    omega

/-- C10, at a concrete input: five bytes with parallelism four give the part size two
and the three ranges `[0,2)`, `[2,4)`, `[4,5)`; the fourth partition is skipped. -/
theorem issuedRanges_partition_witness :
    issuedRanges 5 4 = [(0, 2), (2, 4), (4, 5)] ∧
    (issuedRanges 5 4).length ≤ min 4 5 ∧
    (∀ j, j < 5 ↔ ∃ r ∈ issuedRanges 5 4, r.1 ≤ j ∧ j < r.2) :=
  ⟨by decide, (issuedRanges_partition 5 4 (by decide) (by decide)).2.2.2.2.2.2.2.1,
    (issuedRanges_partition 5 4 (by decide) (by decide)).2.2.2.2.2.2.1⟩

end Tatris
